import Mathlib

/-!
Shallow embedding of the zstd decoder witness-generation core of this
repository: the FSE table reconstruction (FseAuxiliaryTableData) together
with its state-table view, the fixed sequence state-action tables, the
read-only tag transition table and the block-type conversion, all from
the aggregator decoder witgen types module.  Bytes are modelled as Nat
values below 256 and the u64 machine integers as Nat (the modelled code
paths never overflow u64; the one i32 shift in reconstruct_cmotv is
modelled explicitly with its two's complement semantics).  The fallible
reconstruction is modelled with an explicit outcome type distinguishing
a returned io error from a panic.
-/

namespace ZkevmFse

/-- One bit of the little-endian bitstream: bit number i lives in byte
i / 8 at bit position i % 8, least significant first, matching the
bitstream-io BitReader with LittleEndian endianness used by the source. -/
def bitAt (data : List Nat) (i : Nat) : Nat :=
  data.getD (i / 8) 0 / 2 ^ (i % 8) % 2

/-- Value of the n bits starting at bit offset o, least significant bit
first, as accumulated by the little-endian bit reader. -/
def bitsVal (data : List Nat) (o : Nat) : Nat → Nat
  | 0 => 0
  | n + 1 => bitAt data o + 2 * bitsVal data (o + 1) n

/-- Reading n bits at bit offset o; the read fails (the UnexpectedEof io
error of the BitReader over a Cursor) exactly when it would run past the
end of the data. -/
def readBits (data : List Nat) (o n : Nat) : Option Nat :=
  if o + n ≤ 8 * data.length then some (bitsVal data o n) else none

/-- Floor of log2 as a fuel-structured recursion, so that it reduces in
the kernel; proven equal to the log2 of the standard library below. -/
def log2Aux : Nat → Nat → Nat
  | 0, _ => 0
  | fuel + 1, n => if 2 ≤ n then log2Aux fuel (n / 2) + 1 else 0

/-- Floor of log2 (kernel-computable). -/
def log2F (n : Nat) : Nat := log2Aux n n

/-- Ceiling of log2 as a fuel-structured recursion, so that it reduces in
the kernel; proven equal to the base 2 ceiling log of the standard
library below. -/
def clog2Aux : Nat → Nat → Nat
  | 0, _ => 0
  | fuel + 1, n => if 2 ≤ n then clog2Aux fuel ((n + 1) / 2) + 1 else 0

/-- Ceiling of log2 (kernel-computable). -/
def clog2F (n : Nat) : Nat := clog2Aux n n

/-- Modelled from the spec: the function read_variable_bit_packing of the
decoder witgen util module is declared by the sources here but its body is
not among them.  Per the spec it reads either ceil(log2(range + 1)) bits
or one fewer, implementing the truncated binary encoding that zstd uses
for FSE probability fields: with k the floor of log2 of range, a low
k-bit value under the threshold 2 * 2 ^ k - 1 - range is taken as is,
otherwise a (k + 1)-bit value is read and values with the top bit set are
shifted down by that threshold.  Returns the number of bits consumed and
the decoded value. -/
def readVarBitPacking (data : List Nat) (o range : Nat) : Option (Nat × Nat) :=
  let k := log2F range
  let threshold := 2 ^ k
  let mx := 2 * threshold - 1 - range
  match readBits data o k with
  | none => none
  | some lo =>
    if lo < mx then some (k, lo)
    else
      match readBits data o (k + 1) with
      | none => none
      | some v => if v < threshold then some (k + 1, v) else some (k + 1, v - mx)

/-- Modelled from the spec: the function smaller_powers_of_two of the
decoder witgen util module is declared by the sources here but its body is
not among them.  Per the spec, for a symbol occupying n of the table_size
slots it returns the split index at which the states with the smaller
number of bits start, and the per-state numbers of bits: with np the
smallest power of two at least n, the first np - n states read one bit
more than the remaining states, whose bit count is the accuracy log minus
ceil(log2 n). -/
def smallerPowersOfTwo (table_size n : Nat) : Nat × List Nat :=
  let np := 2 ^ clog2F n
  let nbSmall := log2F table_size - clog2F n
  let countLarge := np - n
  (countLarge,
    List.replicate countLarge (nbSmall + 1) ++ List.replicate (n - countLarge) nbSmall)

/-- A single row in the FSE table (struct FseTableRow of the source). -/
structure FseTableRow where
  state : Nat
  baseline : Nat
  num_bits : Nat
  symbol : Nat
  num_emitted : Nat
  n_acc : Nat
deriving DecidableEq, Repr

/-- Ordered-map insert of the BTreeMap used by the source: keys are kept
sorted and an existing key is overwritten. -/
def mapInsert {α : Type} (m : List (Nat × α)) (k : Nat) (v : α) : List (Nat × α) :=
  match m with
  | [] => [(k, v)]
  | (k1, v1) :: rest =>
    if k < k1 then (k, v) :: (k1, v1) :: rest
    else if k = k1 then (k, v) :: rest
    else (k1, v1) :: mapInsert rest k v

/-- Lookup in the ordered map (the get of the BTreeMap). -/
def mapLookup {α : Type} (m : List (Nat × α)) (k : Nat) : Option α :=
  match m with
  | [] => none
  | (k1, v1) :: rest => if k = k1 then some v1 else mapLookup rest k

/-- The state increment used by the FSE spread: table_size / 2 +
table_size / 8 + 3. -/
def stepSize (table_size : Nat) : Nat := table_size / 2 + table_size / 8 + 3

/-- One state advance of the spread: add the step and mask with
table_size - 1, exactly as the source does. -/
def advance (table_size s : Nat) : Nat := (s + stepSize table_size) &&& (table_size - 1)

/-- The list of n spread states starting at s: the source chains the
current state with n - 1 further advances before sorting. -/
def walk (table_size s : Nat) : Nat → List Nat
  | 0 => []
  | n + 1 => s :: walk table_size (advance table_size s) n

/-- n-fold advance, used for the state carried to the next symbol. -/
def iterAdv (table_size s : Nat) : Nat → Nat
  | 0 => s
  | n + 1 => iterAdv table_size (advance table_size s) n

/-- Rotate right by k, as Vec rotate_right does (k at most the length). -/
def rotRight (l : List Nat) (k : Nat) : List Nat := l.rotate (l.length - k)

/-- The per-state baselines of a symbol with n states: for n = 1 the
baseline is 0; otherwise the numbers of bits are rotated left by the
split index, the cumulative sums of their powers of two are prefixed
with 0 and truncated to n entries, and the result is rotated back
right by the split index.  This is the once-chain-scan-take and
rotate_right of the source. -/
def baselinesFor (n idx : Nat) (nbs : List Nat) : List Nat :=
  if n = 1 then [0]
  else rotRight ((List.scanl (fun b nb => b + 2 ^ nb) 0 (nbs.rotate idx)).take n) idx

/-- The zip-zip-map of the source building one FseTableRow per state,
with the decode-time counters num_emitted and n_acc set to 0. -/
def mkRows (symbol : Nat) : List Nat → List Nat → List Nat → List FseTableRow
  | s :: ss, nb :: nbs, bl :: bls =>
    { state := s, baseline := bl, num_bits := nb, symbol := symbol,
      num_emitted := 0, n_acc := 0 } :: mkRows symbol ss nbs bls
  | _, _, _ => []

/-- Outcome of running a fallible piece of the source: a returned Ok
value, a returned io error (UnexpectedEof), a panic (the unimplemented
macro aborts instead of returning), or exhaustion of the fuel that makes
the embedded loop structurally recursive (never hit with the fuel
supplied by reconstruct). -/
inductive RunResult (α : Type) where
  | ok : α → RunResult α
  | eofErr : RunResult α
  | panicked : RunResult α
  | outOfFuel : RunResult α
deriving DecidableEq, Repr

/-- The mutable locals of the reconstruction loop: bits consumed so far,
remaining slot budget R, current spread state, next symbol, the
symbol-to-states map accumulated so far and the bit boundaries. -/
structure LoopSt where
  offset : Nat
  R : Nat
  state : Nat
  symbol : Nat
  acc : List (Nat × List FseTableRow)
  bb : List (Nat × Nat)
deriving DecidableEq, Repr

/-- The inner for-loop inserting empty state lists for k ranging over the
repeat count: inserts symbol + 0, ..., symbol + (count - 1). -/
def insEmpties (m : List (Nat × List FseTableRow)) (symbol : Nat) :
    Nat → List (Nat × List FseTableRow)
  | 0 => m
  | k + 1 => mapInsert (insEmpties m symbol k) (symbol + k) []

/-- The repeat-flag loop of the source: read 2 bits, record the boundary,
insert that many zero-probability symbols, and continue while the flag
reads 3. -/
def repeatLoop (data : List Nat) : Nat → LoopSt → RunResult LoopSt
  | 0, _ => .outOfFuel
  | fuel + 1, st =>
    match readBits data st.offset 2 with
    | none => .eofErr
    | some rb =>
      let st2 : LoopSt :=
        { st with offset := st.offset + 2,
                  bb := st.bb ++ [(st.offset + 2, rb)],
                  acc := insEmpties st.acc st.symbol rb,
                  symbol := st.symbol + rb }
      if rb < 3 then .ok st2 else repeatLoop data fuel st2

/-- The loop state after a zero-probability read (value 1): record the
boundary, insert an empty state list for the current symbol, and advance
the symbol; R and the spread state are untouched.  The following
repeat-flag loop starts from this state. -/
def zeroSt (st : LoopSt) (offset value : Nat) : LoopSt :=
  { st with offset := offset, bb := st.bb ++ [(offset, value)],
            acc := mapInsert st.acc st.symbol [],
            symbol := st.symbol + 1 }

/-- The rows assigned to the current symbol by the N at least 1 branch:
the sorted spread states zipped with the numbers of bits and the
baselines. -/
def spreadRows (table_size : Nat) (st : LoopSt) (N : Nat) : List FseTableRow :=
  let states := List.insertionSort (· ≤ ·) (walk table_size st.state N)
  let p := smallerPowersOfTwo table_size N
  mkRows st.symbol states p.2 (baselinesFor N p.1 p.2)

/-- The loop state after the N at least 1 branch: record the boundary,
insert the spread rows for the current symbol, advance symbol and spread
state, and remove N slots from R. -/
def spreadSt (table_size : Nat) (st : LoopSt) (offset N value : Nat) : LoopSt :=
  { offset := offset, R := st.R - N,
    state := iterAdv table_size st.state N,
    symbol := st.symbol + 1,
    acc := mapInsert st.acc st.symbol (spreadRows table_size st N),
    bb := st.bb ++ [(offset, value)] }

/-- The main while R > 0 loop of FseAuxiliaryTableData reconstruct: read
a probability value by variable bit-packing against range R + 1, panic on
value 0 (the unimplemented branch), handle a zero probability (value 1)
through the repeat-flag loop, otherwise spread N = value - 1 states for
the current symbol with their numbers of bits and baselines, and remove
N slots from R. -/
def loopGo (data : List Nat) (table_size : Nat) : Nat → LoopSt → RunResult LoopSt
  | 0, _ => .outOfFuel
  | fuel + 1, st =>
    if st.R = 0 then .ok st
    else
      match readVarBitPacking data st.offset (st.R + 1) with
      | none => .eofErr
      | some (n, value) =>
        if value = 0 then .panicked
        else if value - 1 = 0 then
          match repeatLoop data fuel (zeroSt st (st.offset + n) value) with
          | .ok st2 => loopGo data table_size fuel st2
          | .eofErr => .eofErr
          | .panicked => .panicked
          | .outOfFuel => .outOfFuel
        else
          loopGo data table_size fuel
            (spreadSt table_size st (st.offset + n) (value - 1) value)

/-- Reachability between states of the reconstruction loop, mirroring
the recursion of loopGo exactly: one step is one completed iteration of
the while loop, either a zero-probability read (value 1) followed by a
terminating run of the repeat-flag loop, or a spreading read (value at
least 2).  A state reached through this relation from the initial state
is one at which the loop performs its next variable-bit-packed
probability read during the decode. -/
inductive LoopSteps (data : List Nat) (T : Nat) : LoopSt → LoopSt → Prop where
  | refl (st : LoopSt) : LoopSteps data T st st
  | stepZero (st st2 stF : LoopSt) (n value fuel : Nat) (hR : ¬ st.R = 0)
      (hv : readVarBitPacking data st.offset (st.R + 1) = some (n, value))
      (h0 : ¬ value = 0) (hN : value - 1 = 0)
      (hrl : repeatLoop data fuel (zeroSt st (st.offset + n) value) = .ok st2)
      (h : LoopSteps data T st2 stF) : LoopSteps data T st stF
  | stepSpread (st stF : LoopSt) (n value : Nat) (hR : ¬ st.R = 0)
      (hv : readVarBitPacking data st.offset (st.R + 1) = some (n, value))
      (h0 : ¬ value = 0) (hN : ¬ value - 1 = 0)
      (h : LoopSteps data T (spreadSt T st (st.offset + n) (value - 1) value) stF) :
      LoopSteps data T st stF

/-- Auxiliary data accompanying the FSE table witness values (struct
FseAuxiliaryTableData of the source). -/
structure FseAuxiliaryTableData where
  byte_offset : Nat
  table_size : Nat
  sym_to_states : List (Nat × List FseTableRow)
deriving DecidableEq, Repr

/-- FseAuxiliaryTableData reconstruct: skip byte_offset bytes, read the
4-bit accuracy log field plus 5, run the reconstruction loop with table
size 2 to the accuracy log, and finally round the bit offset up to the
next byte boundary t, reading and recording the discarded trailing bits.
The fuel 8 * length + 2 exceeds the number of loop iterations possible
before the reader runs out of bits, so outOfFuel is never returned. -/
def reconstruct (src : List Nat) (byte_offset : Nat) :
    RunResult (Nat × List (Nat × Nat) × FseAuxiliaryTableData) :=
  let data := src.drop byte_offset
  match readBits data 0 4 with
  | none => .eofErr
  | some v =>
    let accuracy_log := v + 5
    let table_size := 1 <<< accuracy_log
    match loopGo data table_size (8 * data.length + 2)
        { offset := 4, R := table_size, state := 0, symbol := 0,
          acc := [], bb := [(4, v)] } with
    | .ok st =>
      let t := (st.offset - 1) / 8 + 1
      if t * 8 > st.offset then
        match readBits data st.offset (t * 8 - st.offset) with
        | none => .eofErr
        | some w =>
          .ok (t, st.bb ++ [(st.offset + (t * 8 - st.offset), w)],
            { byte_offset := byte_offset, table_size := table_size,
              sym_to_states := st.acc })
      else
        .ok (t, st.bb,
          { byte_offset := byte_offset, table_size := table_size,
            sym_to_states := st.acc })
    | .eofErr => .eofErr
    | .panicked => .panicked
    | .outOfFuel => .outOfFuel

/-- The state-keyed view of a reconstructed table (parse_state_table of
the source): flatten the per-symbol rows and key them by state. -/
def FseAuxiliaryTableData.parse_state_table (t : FseAuxiliaryTableData) :
    List (Nat × (Nat × Nat × Nat)) :=
  ((t.sym_to_states.map Prod.snd).flatten).foldl
    (fun m row => mapInsert m row.state (row.symbol, row.baseline, row.num_bits)) []

/-- All rows of the accumulated symbol-to-states map, in map order. -/
def accRows (m : List (Nat × List FseTableRow)) : List FseTableRow :=
  (m.map Prod.snd).flatten

/-- The states of all rows of the accumulated map, in map order. -/
def accStates (m : List (Nat × List FseTableRow)) : List Nat :=
  (accRows m).map FseTableRow.state

/-- Boolean strict-increase check on a list of naturals, equivalent to
the chain of strict inequalities between adjacent entries. -/
def strictIncr : List Nat → Bool
  | a :: b :: rest => decide (a < b) && strictIncr (b :: rest)
  | _ => true

/-- Data for baseline and number of bits of a state in the fixed tables
(struct SequenceFixedStateActionTable of the source). -/
structure SequenceFixedStateActionTable where
  states_to_actions : List (Nat × (Nat × Nat))
deriving DecidableEq, Repr

/-- The literal rows 16 to 35 of the predefined literal-length table. -/
def lltvHighRows : List (Nat × Nat × Nat) :=
  [(16, 16, 1), (17, 18, 1), (18, 20, 1), (19, 22, 1), (20, 24, 2),
   (21, 28, 2), (22, 32, 3), (23, 40, 3), (24, 48, 4), (25, 64, 6),
   (26, 128, 7), (27, 256, 8), (28, 512, 9), (29, 1024, 10),
   (30, 2048, 11), (31, 4096, 12), (32, 8192, 13), (33, 16384, 14),
   (34, 32768, 15), (35, 65536, 16)]

/-- reconstruct_lltv of the source: states 0 to 15 with baseline equal to
the state and 0 bits, then the literal high rows. -/
def reconstruct_lltv : SequenceFixedStateActionTable :=
  { states_to_actions :=
      (List.range 16).map (fun idx => (idx, (idx, 0))) ++
        lltvHighRows.map (fun r => (r.1, (r.2.1, r.2.2))) }

/-- The literal rows 32 to 52 of the predefined match-length table. -/
def mltvHighRows : List (Nat × Nat × Nat) :=
  [(32, 35, 1), (33, 37, 1), (34, 39, 1), (35, 41, 1), (36, 43, 2),
   (37, 47, 2), (38, 51, 3), (39, 59, 3), (40, 67, 4), (41, 83, 4),
   (42, 99, 5), (43, 131, 7), (44, 259, 8), (45, 515, 9), (46, 1027, 10),
   (47, 2051, 11), (48, 4099, 12), (49, 8195, 13), (50, 16387, 14),
   (51, 32771, 15), (52, 65539, 16)]

/-- reconstruct_mltv of the source: states 0 to 31 with baseline equal to
the state plus 3 and 0 bits, then the literal high rows. -/
def reconstruct_mltv : SequenceFixedStateActionTable :=
  { states_to_actions :=
      (List.range 32).map (fun idx => (idx, (idx + 3, 0))) ++
        mltvHighRows.map (fun r => (r.1, (r.2.1, r.2.2))) }

/-- One entry pushed by reconstruct_cmotv.  In the source the baseline is
written as a left shift of the unsuffixed literal 1, which Rust infers at
type i32: for idx up to 30 the value is 2 ^ idx, for idx = 31 the shift
yields the i32 minimum whose cast to u64 sign-extends to
2 ^ 64 - 2 ^ 31, and for idx at least 32 the shift overflows, which
panics in a debug build (modelled as none). -/
def cmotvEntry (idx : Nat) : Option (Nat × (Nat × Nat)) :=
  if idx < 32 then
    some (idx, (if idx = 31 then 2 ^ 64 - 2 ^ 31 else 2 ^ idx, idx))
  else none

/-- The 0 to n loop of reconstruct_cmotv, aborting at the first panicking
entry. -/
def buildCmotv : List Nat → Option (List (Nat × (Nat × Nat)))
  | [] => some []
  | idx :: rest =>
    match cmotvEntry idx, buildCmotv rest with
    | some e, some l => some (e :: l)
    | _, _ => none

/-- reconstruct_cmotv of the source: states 0 to n with baseline the
shifted literal and number of bits equal to the state. -/
def reconstruct_cmotv (n : Nat) : Option (List (Nat × (Nat × Nat))) :=
  buildCmotv (List.range (n + 1))

/-- The tags decodable from zstd encoded data (enum ZstdTag). -/
inductive ZstdTag where
  | Null
  | FrameHeaderDescriptor
  | FrameContentSize
  | BlockHeader
  | RawBlockBytes
  | RleBlockBytes
  | ZstdBlockLiteralsHeader
  | ZstdBlockLiteralsRawBytes
  | ZstdBlockLiteralsRleBytes
  | ZstdBlockFseCode
  | ZstdBlockHuffmanCode
  | ZstdBlockJumpTable
  | ZstdBlockLstream
  | ZstdBlockSequenceHeader
  | ZstdBlockSequenceData
deriving DecidableEq, Repr

/-- Whether the tag produces decoded output (method is_output). -/
def ZstdTag.is_output : ZstdTag → Bool
  | .RawBlockBytes => true
  | .RleBlockBytes => true
  | .ZstdBlockSequenceData => true
  | _ => false

/-- Whether the tag is part of a block (method is_block). -/
def ZstdTag.is_block : ZstdTag → Bool
  | .Null => false
  | .FrameHeaderDescriptor => false
  | .FrameContentSize => false
  | .BlockHeader => false
  | _ => true

/-- Whether the tag is processed back to front (method is_reverse). -/
def ZstdTag.is_reverse : ZstdTag → Bool
  | .FrameContentSize => true
  | .BlockHeader => true
  | .ZstdBlockHuffmanCode => true
  | .ZstdBlockLstream => true
  | .ZstdBlockSequenceData => true
  | _ => false

/-- A row of the read-only tag table (struct RomTagTableRow). -/
structure RomTagTableRow where
  tag : ZstdTag
  tag_next : ZstdTag
  max_len : Nat
  is_output : Bool
  is_reverse : Bool
  is_block : Bool
deriving DecidableEq, Repr

/-- RomTagTableRow rows: the five declared (tag, tag_next, max_len)
transitions, with the per-tag boolean facts filled in from the tag. -/
def RomTagTableRow.rows : List RomTagTableRow :=
  [(ZstdTag.FrameHeaderDescriptor, ZstdTag.FrameContentSize, 1),
   (ZstdTag.FrameContentSize, ZstdTag.BlockHeader, 8),
   (ZstdTag.BlockHeader, ZstdTag.ZstdBlockLiteralsHeader, 3),
   (ZstdTag.ZstdBlockLiteralsHeader, ZstdTag.ZstdBlockLiteralsRawBytes, 5),
   (ZstdTag.ZstdBlockLiteralsRawBytes, ZstdTag.ZstdBlockSequenceHeader, 1048575)].map
    (fun r =>
      { tag := r.1, tag_next := r.2.1, max_len := r.2.2,
        is_output := r.1.is_output, is_reverse := r.1.is_reverse,
        is_block := r.1.is_block })

/-- The tag of the initial decoder state (ZstdState default). -/
def initialTag : ZstdTag := ZstdTag.Null

/-- The declared successor of the initial decoder state (ZstdState
default). -/
def initialTagNext : ZstdTag := ZstdTag.FrameHeaderDescriptor

/-- A tag occurs during a decode if it is the initial tag, the declared
successor of the initial state, or the declared successor of a row of
the tag table whose own tag occurs. -/
inductive Reaches : ZstdTag → Prop where
  | start : Reaches initialTag
  | startNext : Reaches initialTagNext
  | step (r : RomTagTableRow) (hr : r ∈ RomTagTableRow.rows)
      (h : Reaches r.tag) : Reaches r.tag_next

/-- The block types of the zstd block header (enum BlockType). -/
inductive BlockType where
  | RawBlock
  | RleBlock
  | ZstdCompressedBlock
  | Reserved
deriving DecidableEq, Repr

/-- From u8 for BlockType: the unreachable arm for values above 3 is a
panic, modelled as none. -/
def BlockType.fromU8 : Nat → Option BlockType
  | 0 => some .RawBlock
  | 1 => some .RleBlock
  | 2 => some .ZstdCompressedBlock
  | 3 => some .Reserved
  | _ => none

/-- Agreement of two byte lists on the first m bytes. -/
def agreeOn (data data2 : List Nat) (m : Nat) : Prop :=
  ∀ j, j < m → data.getD j 0 = data2.getD j 0

/-- All keys of the ordered map are below q. -/
def keysBelow {α : Type} (m : List (Nat × α)) (q : Nat) : Prop :=
  ∀ p ∈ m, p.1 < q

/-- The input bytes of the fse reconstruction test of the source: three
garbage bytes, the four meaningful bytes, three more garbage bytes. -/
def src4 : List Nat := [0xff, 0xff, 0xff, 0x30, 0x6f, 0x9b, 0x03, 0xff, 0xff, 0xff]

/-- The same meaningful window with the garbage regions altered: the
leading garbage bytes replaced and the trailing ones removed. -/
def src4b : List Nat := [0, 0, 0, 0x30, 0x6f, 0x9b, 0x03]

/-- The outcome of the test reconstruction. -/
def rec4 : RunResult (Nat × List (Nat × Nat) × FseAuxiliaryTableData) := reconstruct src4 3

/-- The bit boundaries of the test reconstruction. -/
def bb4 : List (Nat × Nat) :=
  match rec4 with
  | .ok (_, bb, _) => bb
  | _ => []

/-- The table of the test reconstruction. -/
def tab4 : FseAuxiliaryTableData :=
  match rec4 with
  | .ok (_, _, tab) => tab
  | _ => ⟨0, 0, []⟩

theorem bitAt_le (data : List Nat) (i : Nat) : bitAt data i ≤ 1 := by
  have h := Nat.mod_lt (data.getD (i / 8) 0 / 2 ^ (i % 8)) (show 0 < 2 by norm_num)
  unfold bitAt
  omega

theorem bitsVal_lt (data : List Nat) : ∀ n o, bitsVal data o n < 2 ^ n := by
  intro n
  induction n with
  | zero => intro o; simp [bitsVal]
  | succ n ih =>
    intro o
    have h1 := bitAt_le data o
    have h2 := ih (o + 1)
    simp only [bitsVal, pow_succ]
    omega

theorem bitsVal_succ_high (data : List Nat) :
    ∀ n o, bitsVal data o (n + 1) = bitsVal data o n + 2 ^ n * bitAt data (o + n) := by
  intro n
  induction n with
  | zero => intro o; simp [bitsVal]
  | succ n ih =>
    intro o
    have h := ih (o + 1)
    have he : o + 1 + n = o + (n + 1) := by omega
    rw [he] at h
    calc bitsVal data o (n + 1 + 1)
        = bitAt data o + 2 * bitsVal data (o + 1) (n + 1) := rfl
      _ = bitAt data o +
            2 * (bitsVal data (o + 1) n + 2 ^ n * bitAt data (o + (n + 1))) := by rw [h]
      _ = (bitAt data o + 2 * bitsVal data (o + 1) n) +
            2 ^ (n + 1) * bitAt data (o + (n + 1)) := by rw [pow_succ]; ring
      _ = bitsVal data o (n + 1) + 2 ^ (n + 1) * bitAt data (o + (n + 1)) := rfl

theorem readBits_some {data : List Nat} {o n x : Nat} (h : readBits data o n = some x) :
    o + n ≤ 8 * data.length ∧ x = bitsVal data o n := by
  unfold readBits at h
  split at h
  · exact ⟨by assumption, (Option.some_inj.mp h).symm⟩
  · exact absurd h (by simp)

theorem readBits_of_le {data : List Nat} {o n : Nat} (h : o + n ≤ 8 * data.length) :
    readBits data o n = some (bitsVal data o n) := by
  unfold readBits
  rw [if_pos h]

theorem readBits_lt {data : List Nat} {o n x : Nat} (h : readBits data o n = some x) :
    x < 2 ^ n := by
  rw [(readBits_some h).2]
  exact bitsVal_lt data n o

theorem log2Aux_eq : ∀ fuel n, n ≤ fuel → log2Aux fuel n = Nat.log2 n := by
  intro fuel
  induction fuel with
  | zero =>
    intro n hn
    have h0 : n = 0 := by omega
    subst h0
    rw [log2Aux, Nat.log2]
    simp
  | succ fuel ih =>
    intro n hn
    by_cases h2 : 2 ≤ n
    · rw [log2Aux, if_pos h2, ih (n / 2) (by omega)]
      conv_rhs => rw [Nat.log2]
      rw [if_pos h2]
    · rw [log2Aux, if_neg h2]
      conv_rhs => rw [Nat.log2]
      rw [if_neg h2]

theorem log2F_eq (n : Nat) : log2F n = Nat.log2 n := log2Aux_eq n n (Nat.le_refl n)

theorem clog2Aux_eq : ∀ fuel n, n ≤ fuel → clog2Aux fuel n = Nat.clog 2 n := by
  intro fuel
  induction fuel with
  | zero =>
    intro n hn
    have h0 : n = 0 := by omega
    subst h0
    rw [clog2Aux, Nat.clog]
    simp
  | succ fuel ih =>
    intro n hn
    by_cases h2 : 2 ≤ n
    · rw [clog2Aux, if_pos h2, ih ((n + 1) / 2) (by omega)]
      conv_rhs => rw [Nat.clog]
      rw [dif_pos ⟨by norm_num, by omega⟩]
      norm_num
    · rw [clog2Aux, if_neg h2]
      conv_rhs => rw [Nat.clog]
      rw [dif_neg (by omega)]

theorem clog2F_eq (n : Nat) : clog2F n = Nat.clog 2 n := clog2Aux_eq n n (Nat.le_refl n)

theorem bitAt_agree {data data2 : List Nat} {m : Nat} (h : agreeOn data data2 m)
    {i : Nat} (hi : i < 8 * m) : bitAt data i = bitAt data2 i := by
  unfold bitAt
  rw [h (i / 8) (by omega)]

theorem bitsVal_agree {data data2 : List Nat} {m : Nat} (h : agreeOn data data2 m) :
    ∀ n o, o + n ≤ 8 * m → bitsVal data o n = bitsVal data2 o n := by
  intro n
  induction n with
  | zero => intro o _; simp [bitsVal]
  | succ n ih =>
    intro o hb
    simp only [bitsVal]
    rw [bitAt_agree h (by omega), ih (o + 1) (by omega)]

theorem readBits_agree {data data2 : List Nat} {m : Nat} (h : agreeOn data data2 m)
    (hm : m ≤ data2.length) {o n x : Nat} (hr : readBits data o n = some x)
    (hb : o + n ≤ 8 * m) : readBits data2 o n = some x := by
  obtain ⟨_, hx⟩ := readBits_some hr
  rw [hx, bitsVal_agree h n o hb]
  exact readBits_of_le (by omega)

theorem readVBP_facts {data : List Nat} {o range n v : Nat} (hrange : 1 ≤ range)
    (h : readVarBitPacking data o range = some (n, v)) :
    v ≤ range ∧ log2F range ≤ n ∧ n ≤ log2F range + 1 ∧ o + n ≤ 8 * data.length := by
  have hne : range ≠ 0 := by omega
  have hts : 2 ^ log2F range ≤ range := by
    rw [log2F_eq]
    exact Nat.log2_self_le hne
  have hlt : range < 2 ^ log2F range * 2 := by
    have h2 := @Nat.lt_log2_self range
    rw [pow_succ] at h2
    rwa [log2F_eq]
  simp only [readVarBitPacking] at h
  rcases h1 : readBits data o (log2F range) with _ | lo
  · simp [h1] at h
  · simp only [h1] at h
    obtain ⟨hb1, _⟩ := readBits_some h1
    by_cases hsm : lo < 2 * 2 ^ log2F range - 1 - range
    · rw [if_pos hsm] at h
      obtain ⟨hn, hv⟩ := Prod.mk.injEq .. ▸ Option.some_inj.mp h
      omega
    · rw [if_neg hsm] at h
      rcases h2 : readBits data o (log2F range + 1) with _ | v2
      · simp [h2] at h
      · simp only [h2] at h
        obtain ⟨hb2, _⟩ := readBits_some h2
        have hv2 : v2 < 2 ^ (log2F range + 1) := readBits_lt h2
        rw [pow_succ] at hv2
        by_cases hbig : v2 < 2 ^ log2F range
        · rw [if_pos hbig] at h
          obtain ⟨hn, hv⟩ := Prod.mk.injEq .. ▸ Option.some_inj.mp h
          omega
        · rw [if_neg hbig] at h
          obtain ⟨hn, hv⟩ := Prod.mk.injEq .. ▸ Option.some_inj.mp h
          omega

theorem readVBP_agree {data data2 : List Nat} {m : Nat} (hag : agreeOn data data2 m)
    (hm : m ≤ data2.length) {o range n v : Nat}
    (h : readVarBitPacking data o range = some (n, v)) (hb : o + n ≤ 8 * m) :
    readVarBitPacking data2 o range = some (n, v) := by
  simp only [readVarBitPacking] at h ⊢
  rcases h1 : readBits data o (log2F range) with _ | lo
  · simp [h1] at h
  · simp only [h1] at h
    by_cases hsm : lo < 2 * 2 ^ log2F range - 1 - range
    · rw [if_pos hsm] at h
      obtain ⟨hn, hv⟩ := Prod.mk.injEq .. ▸ Option.some_inj.mp h
      subst hn
      subst hv
      simp only [readBits_agree hag hm h1 (by omega), if_pos hsm]
    · rw [if_neg hsm] at h
      rcases h2 : readBits data o (log2F range + 1) with _ | v2
      · simp [h2] at h
      · simp only [h2] at h
        have hn : n = log2F range + 1 := by
          by_cases hbig : v2 < 2 ^ log2F range
          · rw [if_pos hbig] at h
            exact (Prod.mk.injEq .. ▸ Option.some_inj.mp h).1.symm
          · rw [if_neg hbig] at h
            exact (Prod.mk.injEq .. ▸ Option.some_inj.mp h).1.symm
        simp only [readBits_agree hag hm h1 (by omega), if_neg hsm,
          readBits_agree hag hm h2 (by omega)]
        exact h

theorem mapInsert_append {α : Type} {m : List (Nat × α)} {k : Nat} (v : α)
    (h : keysBelow m k) : mapInsert m k v = m ++ [(k, v)] := by
  induction m with
  | nil => rfl
  | cons p rest ih =>
    have hp : p.1 < k := h p (List.mem_cons_self ..)
    obtain ⟨k1, v1⟩ := p
    simp only [mapInsert, if_neg (by omega : ¬ k < k1), if_neg (by omega : ¬ k = k1),
      List.cons_append, List.cons.injEq, true_and]
    exact ih (fun q hq => h q (List.mem_cons_of_mem _ hq))

theorem keysBelow_nil {α : Type} (q : Nat) : keysBelow ([] : List (Nat × α)) q := by
  intro p hp
  simp at hp

theorem keysBelow_mono {α : Type} {m : List (Nat × α)} {q q2 : Nat}
    (h : keysBelow m q) (hq : q ≤ q2) : keysBelow m q2 := by
  intro p hp
  have := h p hp
  omega

theorem keysBelow_append {α : Type} {m : List (Nat × α)} {k : Nat} {v : α}
    (h : keysBelow m k) : keysBelow (m ++ [(k, v)]) (k + 1) := by
  intro p hp
  rcases List.mem_append.mp hp with h1 | h1
  · have := h p h1
    omega
  · simp only [List.mem_singleton] at h1
    subst h1
    exact Nat.lt_succ_self k

theorem mapLookup_mapInsert {α : Type} (m : List (Nat × α)) (k : Nat) (v : α) (s : Nat) :
    mapLookup (mapInsert m k v) s = if s = k then some v else mapLookup m s := by
  induction m with
  | nil => rfl
  | cons p rest ih =>
    obtain ⟨k1, v1⟩ := p
    simp only [mapInsert]
    by_cases h1 : k < k1
    · simp only [if_pos h1, mapLookup]
    · simp only [if_neg h1]
      by_cases h2 : k = k1
      · subst h2
        simp only [if_pos rfl, mapLookup]
        by_cases hs : s = k
        · simp [hs]
        · simp [hs]
      · simp only [if_neg h2, mapLookup, ih]
        by_cases hs1 : s = k1
        · have hs2 : ¬ s = k := by omega
          simp only [if_pos hs1, if_neg hs2]
        · by_cases hs2 : s = k
          · simp only [if_neg hs1, if_pos hs2]
          · simp only [if_neg hs1, if_neg hs2]

theorem accRows_append {k : Nat} (m : List (Nat × List FseTableRow))
    (rows : List FseTableRow) : accRows (m ++ [(k, rows)]) = accRows m ++ rows := by
  simp [accRows]

theorem accStates_append {k : Nat} (m : List (Nat × List FseTableRow))
    (rows : List FseTableRow) :
    accStates (m ++ [(k, rows)]) = accStates m ++ rows.map FseTableRow.state := by
  simp [accStates, accRows_append]

theorem insEmpties_spec (m : List (Nat × List FseTableRow)) (symbol : Nat) :
    ∀ rb, keysBelow m symbol →
      accRows (insEmpties m symbol rb) = accRows m ∧
      keysBelow (insEmpties m symbol rb) (symbol + rb) := by
  intro rb
  induction rb with
  | zero => intro h; exact ⟨rfl, by simpa using h⟩
  | succ k ih =>
    intro h
    obtain ⟨hrows, hkeys⟩ := ih h
    have hb : keysBelow (insEmpties m symbol k) (symbol + k) := hkeys
    simp only [insEmpties, mapInsert_append _ hb]
    constructor
    · rw [accRows_append, hrows, List.append_nil]
    · have := keysBelow_append (v := ([] : List FseTableRow)) hb
      exact fun p hp => by have := this p hp; omega

theorem repeatLoop_mono (data : List Nat) :
    ∀ fuel st st2, repeatLoop data fuel st = .ok st2 → st.offset ≤ st2.offset := by
  intro fuel
  induction fuel with
  | zero => intro st st2 h; simp [repeatLoop] at h
  | succ fuel ih =>
    intro st st2 h
    simp only [repeatLoop] at h
    rcases hr : readBits data st.offset 2 with _ | rb
    · simp [hr] at h
    · simp only [hr] at h
      by_cases h3 : rb < 3
      · rw [if_pos h3] at h
        cases h
        simp
      · rw [if_neg h3] at h
        have := ih _ _ h
        simp at this
        omega

theorem repeatLoop_spec (data : List Nat) :
    ∀ fuel st st2, repeatLoop data fuel st = .ok st2 → keysBelow st.acc st.symbol →
      accRows st2.acc = accRows st.acc ∧ keysBelow st2.acc st2.symbol ∧
      st2.R = st.R ∧ st2.state = st.state := by
  intro fuel
  induction fuel with
  | zero => intro st st2 h _; simp [repeatLoop] at h
  | succ fuel ih =>
    intro st st2 h hkb
    simp only [repeatLoop] at h
    rcases hr : readBits data st.offset 2 with _ | rb
    · simp [hr] at h
    · simp only [hr] at h
      obtain ⟨hrows, hkeys⟩ := insEmpties_spec st.acc st.symbol rb hkb
      by_cases h3 : rb < 3
      · rw [if_pos h3] at h
        cases h
        exact ⟨hrows, hkeys, rfl, rfl⟩
      · rw [if_neg h3] at h
        obtain ⟨ha, hb, hc, hd⟩ := ih _ _ h hkeys
        simp only at ha hc hd
        exact ⟨ha.trans hrows, hb, hc, hd⟩

theorem repeatLoop_agree {data data2 : List Nat} {m : Nat} (hag : agreeOn data data2 m)
    (hm : m ≤ data2.length) :
    ∀ fuel st st2, repeatLoop data fuel st = .ok st2 → st2.offset ≤ 8 * m →
      repeatLoop data2 fuel st = .ok st2 := by
  intro fuel
  induction fuel with
  | zero => intro st st2 h _; simp [repeatLoop] at h
  | succ fuel ih =>
    intro st st2 h hb
    simp only [repeatLoop] at h ⊢
    rcases hr : readBits data st.offset 2 with _ | rb
    · simp [hr] at h
    · simp only [hr] at h
      have hoff : st.offset + 2 ≤ 8 * m := by
        by_cases h3 : rb < 3
        · rw [if_pos h3] at h
          cases h
          simpa using hb
        · rw [if_neg h3] at h
          have := repeatLoop_mono data _ _ _ h
          simp at this
          omega
      simp only [readBits_agree hag hm hr hoff]
      by_cases h3 : rb < 3
      · rw [if_pos h3] at h ⊢
        exact h
      · rw [if_neg h3] at h ⊢
        exact ih _ _ h hb

theorem repeatLoop_fuel (data : List Nat) :
    ∀ fuel st st2, repeatLoop data fuel st = .ok st2 →
      ∀ fuel2, st2.offset - st.offset ≤ fuel2 → repeatLoop data fuel2 st = .ok st2 := by
  intro fuel
  induction fuel with
  | zero => intro st st2 h; simp [repeatLoop] at h
  | succ fuel ih =>
    intro st st2 h fuel2 hf
    simp only [repeatLoop] at h
    rcases hr : readBits data st.offset 2 with _ | rb
    · simp [hr] at h
    · simp only [hr] at h
      by_cases h3 : rb < 3
      · rw [if_pos h3] at h
        have hst : st2.offset = st.offset + 2 := by cases h; simp
        obtain ⟨f2, rfl⟩ : ∃ f2, fuel2 = f2 + 1 := ⟨fuel2 - 1, by omega⟩
        simp only [repeatLoop, hr]
        rw [if_pos h3]
        exact h
      · rw [if_neg h3] at h
        have hmono := repeatLoop_mono data _ _ _ h
        simp only at hmono
        obtain ⟨f2, rfl⟩ : ∃ f2, fuel2 = f2 + 1 := ⟨fuel2 - 1, by omega⟩
        simp only [repeatLoop, hr]
        rw [if_neg h3]
        exact ih _ _ h f2 (by simp only; omega)

theorem advance_eq_mod {AL : Nat} (s : Nat) :
    advance (2 ^ AL) s = (s + stepSize (2 ^ AL)) % 2 ^ AL := by
  unfold advance
  exact Nat.and_pow_two_sub_one_eq_mod ..

theorem iterAdv_eq_mod {AL : Nat} :
    ∀ n s, s < 2 ^ AL → iterAdv (2 ^ AL) s n = (s + n * stepSize (2 ^ AL)) % 2 ^ AL := by
  intro n
  induction n with
  | zero =>
    intro s hs
    simp only [iterAdv, Nat.zero_mul, Nat.add_zero]
    exact (Nat.mod_eq_of_lt hs).symm
  | succ n ih =>
    intro s hs
    have hpos : 0 < 2 ^ AL := Nat.pos_pow_of_pos AL (by norm_num)
    simp only [iterAdv, advance_eq_mod]
    rw [ih _ (Nat.mod_lt _ hpos), Nat.mod_add_mod]
    congr 1
    ring

theorem walk_eq_map {AL : Nat} :
    ∀ n s, s < 2 ^ AL →
      walk (2 ^ AL) s n =
        (List.range n).map (fun k => (s + k * stepSize (2 ^ AL)) % 2 ^ AL) := by
  intro n
  induction n with
  | zero => intro s _; simp [walk]
  | succ n ih =>
    intro s hs
    have hpos : 0 < 2 ^ AL := Nat.pos_pow_of_pos AL (by norm_num)
    rw [List.range_succ_eq_map]
    simp only [walk, advance_eq_mod, List.map_cons, List.map_map]
    congr 1
    · simp [Nat.mod_eq_of_lt hs]
    · rw [ih _ (Nat.mod_lt _ hpos)]
      apply List.map_congr_left
      intro k _
      simp only [Function.comp]
      rw [Nat.mod_add_mod]
      congr 1
      rw [Nat.succ_eq_add_one]
      ring

theorem stepSize_odd {AL : Nat} (hAL : 5 ≤ AL) : Odd (stepSize (2 ^ AL)) := by
  have hAL1 : AL - 1 + 1 = AL := by omega
  have hAL3 : AL - 3 + 3 = AL := by omega
  have h2 : 2 ^ AL / 2 = 2 ^ (AL - 1) := by
    conv_lhs => rw [← hAL1, pow_succ]
    exact Nat.mul_div_cancel _ (by norm_num)
  have h8 : 2 ^ AL / 8 = 2 ^ (AL - 3) := by
    conv_lhs => rw [← hAL3, pow_add]
    exact Nat.mul_div_cancel _ (by norm_num)
  have he2 : Even (2 ^ (AL - 1)) := by
    refine (Nat.even_pow (n := AL - 1)).mpr ⟨by norm_num, by omega⟩
  have he8 : Even (2 ^ (AL - 3)) := by
    refine (Nat.even_pow (n := AL - 3)).mpr ⟨by norm_num, by omega⟩
  unfold stepSize
  rw [h2, h8]
  exact (he2.add he8).add_odd ⟨1, rfl⟩

theorem spread_coprime {AL : Nat} (hAL : 5 ≤ AL) :
    Nat.Coprime (stepSize (2 ^ AL)) (2 ^ AL) :=
  Nat.Coprime.pow_right AL (Nat.coprime_two_right.mpr (stepSize_odd hAL))

theorem spread_inj {AL : Nat} (hAL : 5 ≤ AL) {j k : Nat} (hj : j < 2 ^ AL)
    (hk : k < 2 ^ AL)
    (h : j * stepSize (2 ^ AL) % 2 ^ AL = k * stepSize (2 ^ AL) % 2 ^ AL) : j = k := by
  have hco : Nat.gcd (2 ^ AL) (stepSize (2 ^ AL)) = 1 :=
    Nat.Coprime.symm (spread_coprime hAL)
  have hmod : j ≡ k [MOD 2 ^ AL] :=
    Nat.ModEq.cancel_right_of_coprime hco h
  have h3 : j % 2 ^ AL = k % 2 ^ AL := hmod
  rwa [Nat.mod_eq_of_lt hj, Nat.mod_eq_of_lt hk] at h3

theorem spread_perm {AL : Nat} (hAL : 5 ≤ AL) :
    ((List.range (2 ^ AL)).map (fun k => k * stepSize (2 ^ AL) % 2 ^ AL)).Perm
      (List.range (2 ^ AL)) := by
  have hpos : 0 < 2 ^ AL := Nat.pos_pow_of_pos AL (by norm_num)
  have hnd : ((List.range (2 ^ AL)).map
      (fun k => k * stepSize (2 ^ AL) % 2 ^ AL)).Nodup := by
    refine List.Nodup.map_on ?_ (List.nodup_range _)
    intro j hj k hk h
    exact spread_inj hAL (List.mem_range.mp hj) (List.mem_range.mp hk) h
  have hsub : ((List.range (2 ^ AL)).map
      (fun k => k * stepSize (2 ^ AL) % 2 ^ AL)) ⊆ List.range (2 ^ AL) := by
    intro x hx
    obtain ⟨k, _, rfl⟩ := List.mem_map.mp hx
    exact List.mem_range.mpr (Nat.mod_lt _ hpos)
  refine (hnd.subperm hsub).perm_of_length_le ?_
  simp

theorem sPOT_large_le {n : Nat} (hn : 1 ≤ n) : 2 ^ clog2F n - n ≤ n := by
  rcases Nat.lt_or_ge n 2 with h2 | h2
  · have h1 : n = 1 := by omega
    subst h1
    rw [clog2F_eq, Nat.clog_one_right]
    simp
  · have hlt := Nat.pow_pred_clog_lt_self (by norm_num : (1 : Nat) < 2) (by omega : 1 < n)
    have hpos := Nat.clog_pos (by norm_num : (1 : Nat) < 2) h2
    rw [clog2F_eq]
    have h2c : 2 ^ Nat.clog 2 n = 2 * 2 ^ (Nat.clog 2 n - 1) := by
      conv_lhs => rw [show Nat.clog 2 n = Nat.clog 2 n - 1 + 1 by omega, pow_succ]
      ring
    rw [Nat.pred_eq_sub_one] at hlt
    omega

theorem sPOT_len (T : Nat) {n : Nat} (hn : 1 ≤ n) :
    ((smallerPowersOfTwo T n).2).length = n := by
  have hcl := sPOT_large_le hn
  simp only [smallerPowersOfTwo, List.length_append, List.length_replicate]
  omega

theorem baselinesFor_len {n idx : Nat} (hn : 1 ≤ n) {nbs : List Nat}
    (hlen : nbs.length = n) : (baselinesFor n idx nbs).length = n := by
  unfold baselinesFor
  by_cases h1 : n = 1
  · rw [if_pos h1, h1]
    rfl
  · rw [if_neg h1]
    unfold rotRight
    rw [List.length_rotate, List.length_take, List.length_scanl, List.length_rotate, hlen]
    omega

theorem mkRows_states (symbol : Nat) :
    ∀ ss nbs bls : List Nat, nbs.length = ss.length → bls.length = ss.length →
      (mkRows symbol ss nbs bls).map FseTableRow.state = ss := by
  intro ss
  induction ss with
  | nil => intro nbs bls _ _; rfl
  | cons s ss ih =>
    intro nbs bls hn hb
    match nbs, bls with
    | nb :: nbs, bl :: bls =>
      simp only [mkRows, List.map_cons, List.cons.injEq, true_and]
      exact ih nbs bls (by simpa using hn) (by simpa using hb)

theorem mkRows_zero (symbol : Nat) :
    ∀ ss nbs bls : List Nat, ∀ r ∈ mkRows symbol ss nbs bls,
      r.num_emitted = 0 ∧ r.n_acc = 0 := by
  intro ss
  induction ss with
  | nil => intro nbs bls r hr; simp [mkRows] at hr
  | cons s ss ih =>
    intro nbs bls r hr
    match nbs, bls with
    | [], _ => simp [mkRows] at hr
    | _ :: _, [] => simp [mkRows] at hr
    | nb :: nbs, bl :: bls =>
      simp only [mkRows, List.mem_cons] at hr
      rcases hr with hr | hr
      · subst hr
        exact ⟨rfl, rfl⟩
      · exact ih nbs bls r hr

theorem walk_length (T : Nat) : ∀ n s, (walk T s n).length = n := by
  intro n
  induction n with
  | zero => intro s; rfl
  | succ n ih =>
    intro s
    simp only [walk, List.length_cons, ih]

theorem getD_drop {α : Type} (l : List α) (d : α) :
    ∀ n i, (l.drop n).getD i d = l.getD (n + i) d := by
  induction l with
  | nil => intro n i; simp
  | cons x xs ih =>
    intro n i
    cases n with
    | zero => simp
    | succ n =>
      rw [List.drop_succ_cons, ih n i, show n + 1 + i = (n + i) + 1 by omega,
        List.getD_cons_succ]

theorem log2F_one_le {x : Nat} (hx : 2 ≤ x) : 1 ≤ log2F x := by
  rw [log2F_eq]
  exact (Nat.le_log2 (by omega)).mpr (by simpa using hx)

theorem loopGo_mono (data : List Nat) (T : Nat) :
    ∀ fuel st st2, loopGo data T fuel st = .ok st2 → st.offset ≤ st2.offset := by
  intro fuel
  induction fuel with
  | zero => intro st st2 h; simp [loopGo] at h
  | succ fuel ih =>
    intro st st2 h
    simp only [loopGo] at h
    by_cases hR : st.R = 0
    · rw [if_pos hR] at h
      cases h
      exact Nat.le_refl _
    · rw [if_neg hR] at h
      rcases hv : readVarBitPacking data st.offset (st.R + 1) with _ | p
      · simp [hv] at h
      · obtain ⟨n, value⟩ := p
        simp only [hv] at h
        by_cases h0 : value = 0
        · simp [if_pos h0] at h
        · rw [if_neg h0] at h
          by_cases hN : value - 1 = 0
          · rw [if_pos hN] at h
            rcases hrl : repeatLoop data fuel (zeroSt st (st.offset + n) value)
              with st3 | _ | _ | _ <;> simp only [hrl] at h
            · have h1 := repeatLoop_mono data _ _ _ hrl
              have h2 := ih _ _ h
              simp only [zeroSt] at h1
              omega
            · exact RunResult.noConfusion h
            · exact RunResult.noConfusion h
            · exact RunResult.noConfusion h
          · rw [if_neg hN] at h
            have h2 := ih _ _ h
            simp only [spreadSt] at h2
            omega

theorem loopGo_ok_spec {AL : Nat} (hAL : 5 ≤ AL) (data : List Nat) :
    ∀ fuel st st2, loopGo data (2 ^ AL) fuel st = .ok st2 →
      st.R ≤ 2 ^ AL →
      st.state = (2 ^ AL - st.R) * stepSize (2 ^ AL) % 2 ^ AL →
      keysBelow st.acc st.symbol →
      (accStates st.acc).Perm
        ((List.range (2 ^ AL - st.R)).map (fun k => k * stepSize (2 ^ AL) % 2 ^ AL)) →
      (∀ r ∈ accRows st.acc, r.num_emitted = 0 ∧ r.n_acc = 0) →
      st2.R = 0 ∧ keysBelow st2.acc st2.symbol ∧
        (accStates st2.acc).Perm
          ((List.range (2 ^ AL)).map (fun k => k * stepSize (2 ^ AL) % 2 ^ AL)) ∧
        (∀ r ∈ accRows st2.acc, r.num_emitted = 0 ∧ r.n_acc = 0) := by
  have hpos : 0 < 2 ^ AL := Nat.pos_pow_of_pos AL (by norm_num)
  intro fuel
  induction fuel with
  | zero => intro st st2 h; simp [loopGo] at h
  | succ fuel ih =>
    intro st st2 h hRle hstate hkb hperm hzero
    simp only [loopGo] at h
    by_cases hR : st.R = 0
    · rw [if_pos hR] at h
      cases h
      rw [hR] at hperm
      simp only [Nat.sub_zero] at hperm
      exact ⟨hR, hkb, hperm, hzero⟩
    · rw [if_neg hR] at h
      rcases hv : readVarBitPacking data st.offset (st.R + 1) with _ | p
      · simp [hv] at h
      · obtain ⟨n, value⟩ := p
        simp only [hv] at h
        by_cases h0 : value = 0
        · simp [if_pos h0] at h
        · rw [if_neg h0] at h
          obtain ⟨hvle, hnlo, hnhi, hnbound⟩ :=
            readVBP_facts (by omega : 1 ≤ st.R + 1) hv
          by_cases hN : value - 1 = 0
          · rw [if_pos hN] at h
            rcases hrl : repeatLoop data fuel (zeroSt st (st.offset + n) value)
              with st3 | _ | _ | _ <;> simp only [hrl] at h
            · have hkb1 : keysBelow (zeroSt st (st.offset + n) value).acc
                  (zeroSt st (st.offset + n) value).symbol := by
                simp only [zeroSt, mapInsert_append _ hkb]
                exact keysBelow_append hkb
              obtain ⟨hrows3, hkb3, hR3, hstate3⟩ := repeatLoop_spec data _ _ _ hrl hkb1
              have hrows3s : accRows st3.acc = accRows st.acc := by
                rw [hrows3]
                simp only [zeroSt, mapInsert_append _ hkb, accRows_append,
                  List.append_nil]
              have hR3s : st3.R = st.R := by
                rw [hR3]
                simp [zeroSt]
              have hacc3 : accStates st3.acc = accStates st.acc := by
                simp only [accStates, hrows3s]
              refine ih _ _ h (by omega) ?_ hkb3 ?_ ?_
              · rw [hstate3, hR3s]
                simpa [zeroSt] using hstate
              · rw [hacc3, hR3s]
                exact hperm
              · rw [hrows3s]
                exact hzero
            · exact RunResult.noConfusion h
            · exact RunResult.noConfusion h
            · exact RunResult.noConfusion h
          · rw [if_neg hN] at h
            have hN1 : 1 ≤ value - 1 := by omega
            have hNR : value - 1 ≤ st.R := by omega
            have hstlt : st.state < 2 ^ AL := by
              rw [hstate]
              exact Nat.mod_lt _ hpos
            have hlenS : (List.insertionSort (· ≤ ·)
                (walk (2 ^ AL) st.state (value - 1))).length = value - 1 := by
              rw [List.length_insertionSort, walk_length]
            have hrowsSt : (spreadRows (2 ^ AL) st (value - 1)).map FseTableRow.state
                = List.insertionSort (· ≤ ·) (walk (2 ^ AL) st.state (value - 1)) := by
              simp only [spreadRows]
              apply mkRows_states
              · rw [sPOT_len _ hN1, hlenS]
              · rw [baselinesFor_len hN1 (sPOT_len _ hN1), hlenS]
            have hpermRows : ((spreadRows (2 ^ AL) st (value - 1)).map
                FseTableRow.state).Perm
                ((List.range (value - 1)).map
                  (fun k => (2 ^ AL - st.R + k) * stepSize (2 ^ AL) % 2 ^ AL)) := by
              rw [hrowsSt]
              refine (List.perm_insertionSort _ _).trans ?_
              rw [walk_eq_map _ _ hstlt]
              have hcong : ∀ k ∈ List.range (value - 1),
                  (st.state + k * stepSize (2 ^ AL)) % 2 ^ AL
                    = (2 ^ AL - st.R + k) * stepSize (2 ^ AL) % 2 ^ AL := by
                intro k _
                rw [hstate, Nat.mod_add_mod, ← Nat.add_mul]
              rw [List.map_congr_left hcong]
            have hst1R : (spreadSt (2 ^ AL) st (st.offset + n) (value - 1) value).R
                = st.R - (value - 1) := rfl
            have hcN : 2 ^ AL - (st.R - (value - 1))
                = (2 ^ AL - st.R) + (value - 1) := by omega
            refine ih _ _ h (by simp only [hst1R]; omega) ?_ ?_ ?_ ?_
            · simp only [spreadSt]
              rw [iterAdv_eq_mod _ _ hstlt, hstate, Nat.mod_add_mod, ← Nat.add_mul,
                hcN]
            · simp only [spreadSt, mapInsert_append _ hkb]
              exact keysBelow_append hkb
            · simp only [spreadSt, mapInsert_append _ hkb, accStates_append, hst1R,
                hcN, List.range_add, List.map_append, List.map_map]
              refine hperm.append (hpermRows.trans ?_)
              apply List.Perm.of_eq
              apply List.map_congr_left
              intro k _
              simp [Function.comp]
            · simp only [spreadSt, mapInsert_append _ hkb, accRows_append]
              intro r hr
              rcases List.mem_append.mp hr with hr | hr
              · exact hzero r hr
              · exact mkRows_zero _ _ _ _ r (by simpa [spreadRows] using hr)

theorem loopGo_agree {data data2 : List Nat} {m : Nat} (hag : agreeOn data data2 m)
    (hm : m ≤ data2.length) (T : Nat) :
    ∀ fuel st st2, loopGo data T fuel st = .ok st2 → st2.offset ≤ 8 * m →
      loopGo data2 T fuel st = .ok st2 := by
  intro fuel
  induction fuel with
  | zero => intro st st2 h _; simp [loopGo] at h
  | succ fuel ih =>
    intro st st2 h hb
    simp only [loopGo] at h ⊢
    by_cases hR : st.R = 0
    · rw [if_pos hR] at h ⊢
      exact h
    · rw [if_neg hR] at h ⊢
      rcases hv : readVarBitPacking data st.offset (st.R + 1) with _ | p
      · simp [hv] at h
      · obtain ⟨n, value⟩ := p
        simp only [hv] at h
        by_cases h0 : value = 0
        · simp [if_pos h0] at h
        · rw [if_neg h0] at h
          by_cases hN : value - 1 = 0
          · rw [if_pos hN] at h
            rcases hrl : repeatLoop data fuel (zeroSt st (st.offset + n) value)
              with st3 | _ | _ | _ <;> simp only [hrl] at h
            · have hmono3 := repeatLoop_mono data _ _ _ hrl
              have hmonoL := loopGo_mono data T _ _ _ h
              simp only [zeroSt] at hmono3
              have hoff : st.offset + n ≤ 8 * m := by omega
              have hrl2 := repeatLoop_agree hag hm _ _ _ hrl (by omega)
              simp only [readVBP_agree hag hm hv hoff, if_neg h0, if_pos hN, hrl2]
              exact ih _ _ h hb
            · exact RunResult.noConfusion h
            · exact RunResult.noConfusion h
            · exact RunResult.noConfusion h
          · rw [if_neg hN] at h
            have hmonoL := loopGo_mono data T _ _ _ h
            simp only [spreadSt] at hmonoL
            have hoff : st.offset + n ≤ 8 * m := by omega
            simp only [readVBP_agree hag hm hv hoff, if_neg h0, if_neg hN]
            exact ih _ _ h hb

theorem loopGo_fuel (data : List Nat) (T : Nat) :
    ∀ fuel st st2, loopGo data T fuel st = .ok st2 →
      ∀ fuel2, st2.offset - st.offset + 1 ≤ fuel2 → loopGo data T fuel2 st = .ok st2 := by
  intro fuel
  induction fuel with
  | zero => intro st st2 h; simp [loopGo] at h
  | succ fuel ih =>
    intro st st2 h fuel2 hf
    obtain ⟨f2, rfl⟩ : ∃ f2, fuel2 = f2 + 1 := ⟨fuel2 - 1, by omega⟩
    simp only [loopGo] at h ⊢
    by_cases hR : st.R = 0
    · rw [if_pos hR] at h ⊢
      exact h
    · rw [if_neg hR] at h ⊢
      rcases hv : readVarBitPacking data st.offset (st.R + 1) with _ | p
      · simp [hv] at h
      · obtain ⟨n, value⟩ := p
        simp only [hv] at h ⊢
        by_cases h0 : value = 0
        · simp [if_pos h0] at h
        · rw [if_neg h0] at h ⊢
          have hn1 : 1 ≤ n := by
            obtain ⟨_, hnlo, _, _⟩ := readVBP_facts (by omega : 1 ≤ st.R + 1) hv
            have hl := log2F_one_le (show 2 ≤ st.R + 1 by omega)
            omega
          by_cases hN : value - 1 = 0
          · rw [if_pos hN] at h ⊢
            rcases hrl : repeatLoop data fuel (zeroSt st (st.offset + n) value)
              with st3 | _ | _ | _ <;> simp only [hrl] at h
            · have hmono3 := repeatLoop_mono data _ _ _ hrl
              have hmonoL := loopGo_mono data T _ _ _ h
              simp only [zeroSt] at hmono3
              have hrl2 := repeatLoop_fuel data _ _ _ hrl f2
                (by simp only [zeroSt]; omega)
              simp only [hrl2]
              exact ih _ _ h f2 (by omega)
            · exact RunResult.noConfusion h
            · exact RunResult.noConfusion h
            · exact RunResult.noConfusion h
          · rw [if_neg hN] at h ⊢
            have hmonoL := loopGo_mono data T _ _ _ h
            simp only [spreadSt] at hmonoL
            exact ih _ _ h f2 (by simp only [spreadSt]; omega)

theorem mapLookup_foldl_state (rows : List FseTableRow) :
    ∀ m s, (mapLookup (rows.foldl (fun m2 row => mapInsert m2 row.state
        (row.symbol, row.baseline, row.num_bits)) m) s).isSome = true
      ↔ s ∈ rows.map FseTableRow.state ∨ (mapLookup m s).isSome = true := by
  induction rows with
  | nil => intro m s; simp
  | cons r rows ih =>
    intro m s
    simp only [List.foldl_cons, List.map_cons, List.mem_cons]
    rw [ih, mapLookup_mapInsert]
    by_cases hs : s = r.state
    · simp [hs]
    · simp [hs]

theorem reconstruct_ok_main {src : List Nat} {off t : Nat} {bb : List (Nat × Nat)}
    {tab : FseAuxiliaryTableData} (h : reconstruct src off = .ok (t, bb, tab)) :
    (accStates tab.sym_to_states).Perm (List.range tab.table_size) ∧
      (∀ r ∈ accRows tab.sym_to_states, r.num_emitted = 0 ∧ r.n_acc = 0) := by
  simp only [reconstruct] at h
  rcases hv4 : readBits (src.drop off) 0 4 with _ | v
  · simp [hv4] at h
  · simp only [hv4] at h
    have hT : 1 <<< (v + 5) = 2 ^ (v + 5) := Nat.one_shiftLeft _
    rw [hT] at h
    rcases hLoop : loopGo (src.drop off) (2 ^ (v + 5))
        (8 * (src.drop off).length + 2)
        { offset := 4, R := 2 ^ (v + 5), state := 0, symbol := 0, acc := [],
          bb := [(4, v)] } with st | _ | _ | _ <;> simp only [hLoop] at h
    · obtain ⟨hR0, hkb2, hperm, hzero⟩ := loopGo_ok_spec (by omega : 5 ≤ v + 5)
        (src.drop off) _ _ _ hLoop (Nat.le_refl _)
        (by simp) (keysBelow_nil _) (by simp [accStates, accRows])
        (by intro r hr; simp [accRows] at hr)
      have htab : tab.table_size = 2 ^ (v + 5) ∧ tab.sym_to_states = st.acc := by
        by_cases hsp : ((st.offset - 1) / 8 + 1) * 8 > st.offset
        · rw [if_pos hsp] at h
          rcases hw : readBits (src.drop off) st.offset
              (((st.offset - 1) / 8 + 1) * 8 - st.offset) with _ | w
          · simp [hw] at h
          · simp only [hw] at h
            have h2 := RunResult.ok.inj h
            simp only [Prod.mk.injEq] at h2
            obtain ⟨h3, h4, h5⟩ := h2
            rw [← h5]
            exact ⟨rfl, rfl⟩
        · rw [if_neg hsp] at h
          have h2 := RunResult.ok.inj h
          simp only [Prod.mk.injEq] at h2
          obtain ⟨h3, h4, h5⟩ := h2
          rw [← h5]
          exact ⟨rfl, rfl⟩
      obtain ⟨hts, hsym⟩ := htab
      rw [hts, hsym]
      refine ⟨hperm.trans (spread_perm (by omega)), hzero⟩
    · exact RunResult.noConfusion h
    · exact RunResult.noConfusion h
    · exact RunResult.noConfusion h

/-- Claim C1: for every byte slice and byte offset on which
FseAuxiliaryTableData reconstruct returns Ok with table size
2 to the accuracy log, the union over all symbols of the state fields of
the rows in sym_to_states is exactly the set of states below the table
size, each state occurring exactly once (the concatenated state list is a
permutation of the range), and hence the state-keyed mapping built by
parse_state_table is defined exactly on the states below the table size,
so the derived state to (symbol, baseline, num_bits) mapping is a
bijection over that range. -/
theorem fse_reconstruct_states_bijection (src : List Nat) (off t : Nat)
    (bb : List (Nat × Nat)) (tab : FseAuxiliaryTableData)
    (h : reconstruct src off = .ok (t, bb, tab)) :
    (accStates tab.sym_to_states).Perm (List.range tab.table_size) ∧
      ∀ s : Nat, (mapLookup tab.parse_state_table s).isSome = true
        ↔ s < tab.table_size := by
  obtain ⟨hperm, _⟩ := reconstruct_ok_main h
  refine ⟨hperm, ?_⟩
  intro s
  have hfold := mapLookup_foldl_state (accRows tab.sym_to_states) [] s
  have hps : tab.parse_state_table
      = (accRows tab.sym_to_states).foldl
          (fun m2 row => mapInsert m2 row.state
            (row.symbol, row.baseline, row.num_bits)) [] := rfl
  have hmem : s ∈ accStates tab.sym_to_states ↔ s < tab.table_size := by
    rw [hperm.mem_iff, List.mem_range]
  rw [hps, hfold]
  constructor
  · intro hin
    rcases hin with hin | hin
    · exact hmem.mp hin
    · simp [mapLookup] at hin
  · intro hlt
    exact Or.inl (hmem.mpr hlt)

/-- Witness for claim C1, instantiated at the test vector of the source:
the reconstruction at offset 3 succeeds and its states are a permutation
of the range of the table size 32; the state-keyed view is defined at
state 31. -/
theorem fse_reconstruct_states_bijection_witness :
    (accStates tab4.sym_to_states).Perm (List.range tab4.table_size) ∧
      ((mapLookup tab4.parse_state_table 31).isSome = true
        ↔ 31 < tab4.table_size) := by
  have h := fse_reconstruct_states_bijection src4 3 4 bb4 tab4 (by decide)
  exact ⟨h.1, h.2 31⟩

/-- Claim C9: in every FseTableRow contained in the sym_to_states map of
a successfully reconstructed FseAuxiliaryTableData, the decode-time
counter fields num_emitted and n_acc are 0: the reconstruction never
assigns either a nonzero value. -/
theorem fse_rows_counters_zero (src : List Nat) (off t : Nat)
    (bb : List (Nat × Nat)) (tab : FseAuxiliaryTableData)
    (h : reconstruct src off = .ok (t, bb, tab)) :
    ∀ r ∈ accRows tab.sym_to_states, r.num_emitted = 0 ∧ r.n_acc = 0 :=
  (reconstruct_ok_main h).2

/-- Witness for claim C9 at the test vector of the source: the first row
of symbol 1 is in the reconstructed map and its counters are 0. -/
theorem fse_rows_counters_zero_witness :
    (⟨3, 16, 3, 1, 0, 0⟩ : FseTableRow).num_emitted = 0 ∧
      (⟨3, 16, 3, 1, 0, 0⟩ : FseTableRow).n_acc = 0 :=
  fse_rows_counters_zero src4 3 4 bb4 tab4 (by decide)
    ⟨3, 16, 3, 1, 0, 0⟩ (by decide)

/-- Counterexample to claim C2 as stated: on two zero bytes the first
variable-bit-packed probability read yields value 0, and reconstruct
ends in the panic of the unimplemented macro - the run aborts, no typed
io error value is returned to the caller. -/
theorem fse_zero_prob_cex :
    readVarBitPacking (([0, 0] : List Nat).drop 0) 4 (1 <<< (0 + 5) + 1)
        = some (5, 0) ∧
      reconstruct [0, 0] 0 = RunResult.panicked ∧
      reconstruct [0, 0] 0 ≠ RunResult.eofErr := by decide

theorem loopSteps_mono (data : List Nat) (T : Nat) :
    ∀ st stF, LoopSteps data T st stF → st.offset ≤ stF.offset := by
  intro st stF h
  induction h with
  | refl st0 => exact Nat.le_refl _
  | stepZero st st2 stF n value fuel hR hv h0 hN hrl h ih =>
    have h1 := repeatLoop_mono data _ _ _ hrl
    simp only [zeroSt] at h1
    omega
  | stepSpread st stF n value hR hv h0 hN h ih =>
    simp only [spreadSt] at ih
    omega

theorem loopGo_panicked_of_zero_read (data : List Nat) (T : Nat) :
    ∀ st stF, LoopSteps data T st stF → ∀ n, ¬ stF.R = 0 →
      readVarBitPacking data stF.offset (stF.R + 1) = some (n, 0) →
      ∀ fuel, stF.offset + 1 - st.offset ≤ fuel →
        loopGo data T fuel st = .panicked := by
  intro st stF h
  induction h with
  | refl st0 =>
    intro n hR hv fuel hf
    obtain ⟨f, rfl⟩ : ∃ f, fuel = f + 1 := ⟨fuel - 1, by omega⟩
    simp only [loopGo]
    rw [if_neg hR]
    simp only [hv, if_true]
  | stepZero st1 st2 stF n2 value fuel0 hR0 hv0 h0 hN hrl h ih =>
    intro n hR hv fuel hf
    have hn2 : 1 ≤ n2 := by
      obtain ⟨_, hnlo, _, _⟩ :=
        readVBP_facts (show 1 ≤ st1.R + 1 by omega) hv0
      have hl := log2F_one_le (show 2 ≤ st1.R + 1 by omega)
      omega
    have hm3 := repeatLoop_mono data _ _ _ hrl
    simp only [zeroSt] at hm3
    have hmS := loopSteps_mono data T _ _ h
    obtain ⟨f, rfl⟩ : ∃ f, fuel = f + 1 := ⟨fuel - 1, by omega⟩
    simp only [loopGo]
    rw [if_neg hR0]
    simp only [hv0]
    rw [if_neg h0, if_pos hN]
    have hrl2 := repeatLoop_fuel data _ _ _ hrl f (by simp only [zeroSt]; omega)
    simp only [hrl2]
    exact ih n hR hv f (by omega)
  | stepSpread st1 stF n2 value hR0 hv0 h0 hN h ih =>
    intro n hR hv fuel hf
    have hn2 : 1 ≤ n2 := by
      obtain ⟨_, hnlo, _, _⟩ :=
        readVBP_facts (show 1 ≤ st1.R + 1 by omega) hv0
      have hl := log2F_one_le (show 2 ≤ st1.R + 1 by omega)
      omega
    have hmS := loopSteps_mono data T _ _ h
    simp only [spreadSt] at hmS
    obtain ⟨f, rfl⟩ : ∃ f, fuel = f + 1 := ⟨fuel - 1, by omega⟩
    simp only [loopGo]
    rw [if_neg hR0]
    simp only [hv0]
    rw [if_neg h0, if_neg hN]
    exact ih n hR hv f (by simp only [spreadSt]; omega)

/-- Claim C2 (amended): whenever FseAuxiliaryTableData reconstruct reads
a variable-bit-packed probability field whose value is 0 (the
less-than-one probability encoding) - at any iteration of the
reconstruction loop reachable during the decode, not only the first -
the run panics through the unimplemented macro: the decode aborts
rather than returning Ok, silently approximating, or returning a typed
io error. -/
theorem fse_zero_prob_panics (src : List Nat) (off v n : Nat) {st : LoopSt}
    (h4 : readBits (src.drop off) 0 4 = some v)
    (hreach : LoopSteps (src.drop off) (1 <<< (v + 5))
      { offset := 4, R := 1 <<< (v + 5), state := 0, symbol := 0, acc := [],
        bb := [(4, v)] } st)
    (hR : ¬ st.R = 0)
    (hv : readVarBitPacking (src.drop off) st.offset (st.R + 1) = some (n, 0)) :
    reconstruct src off = .panicked := by
  obtain ⟨_, _, _, hbound⟩ := readVBP_facts (show 1 ≤ st.R + 1 by omega) hv
  have hstep := loopGo_panicked_of_zero_read (src.drop off) (1 <<< (v + 5)) _ _
    hreach n hR hv (8 * (src.drop off).length + 2)
    (by show st.offset + 1 - 4 ≤ 8 * (src.drop off).length + 2; omega)
  simp only [reconstruct, h4, hstep]

/-- Witness for claim C2: on the bytes 0x30, 0x6f, 0x9b, 0x00 at offset
0 the first probability field reads value 19, and the zero-valued read
only occurs at the seventh probability field (bit offset 24, six
spreading iterations deep); the whole reconstruction panics. -/
theorem fse_zero_prob_panics_witness :
    reconstruct [0x30, 0x6f, 0x9b, 0x00] 0 = RunResult.panicked :=
  fse_zero_prob_panics [0x30, 0x6f, 0x9b, 0x00] 0 0 1 (by decide)
    (LoopSteps.stepSpread _ _ 5 19 (by decide) (by decide) (by decide) (by decide)
      (LoopSteps.stepSpread _ _ 4 7 (by decide) (by decide) (by decide) (by decide)
        (LoopSteps.stepSpread _ _ 3 3 (by decide) (by decide) (by decide) (by decide)
          (LoopSteps.stepSpread _ _ 3 3 (by decide) (by decide) (by decide)
            (by decide)
            (LoopSteps.stepSpread _ _ 3 3 (by decide) (by decide) (by decide)
              (by decide)
              (LoopSteps.stepSpread _ _ 2 2 (by decide) (by decide) (by decide)
                (by decide) (LoopSteps.refl _)))))))
    (by decide) (by decide)

/-- Claim C4: on the input bytes of the source test with byte offset 3,
the reconstruction succeeds, reports exactly 4 bytes consumed, and the
state list of symbol 1 equals the expected (state, baseline, num_bits)
triples in order. -/
theorem fse_reconstruct_test_vector :
    reconstruct src4 3 = .ok (4, bb4, tab4) ∧
      mapLookup tab4.sym_to_states 1 =
        some [⟨3, 16, 3, 1, 0, 0⟩, ⟨12, 24, 3, 1, 0, 0⟩, ⟨17, 0, 2, 1, 0, 0⟩,
          ⟨21, 4, 2, 1, 0, 0⟩, ⟨26, 8, 2, 1, 0, 0⟩, ⟨30, 12, 2, 1, 0, 0⟩] := by
  decide

/-- Claim C7: a successful reconstruction depends only on the consumed
byte window: a second slice that agrees on the bytes at indices off to
off + t - 1 and is at least off + t long reconstructs to the identical
table with the identical consumed byte count and boundaries. -/
theorem fse_reconstruct_window_agree (src src2 : List Nat) (off t : Nat)
    (bb : List (Nat × Nat)) (tab : FseAuxiliaryTableData)
    (h : reconstruct src off = .ok (t, bb, tab))
    (hlen : off + t ≤ src2.length)
    (hag : ∀ j ∈ List.range (off + t), off ≤ j → src.getD j 0 = src2.getD j 0) :
    reconstruct src2 off = .ok (t, bb, tab) := by
  simp only [reconstruct] at h ⊢
  rcases hv4 : readBits (src.drop off) 0 4 with _ | v
  · simp [hv4] at h
  · simp only [hv4] at h
    rcases hLoop : loopGo (src.drop off) (1 <<< (v + 5))
        (8 * (src.drop off).length + 2)
        { offset := 4, R := 1 <<< (v + 5), state := 0, symbol := 0, acc := [],
          bb := [(4, v)] } with st | _ | _ | _ <;> simp only [hLoop] at h
    · have ht : t = (st.offset - 1) / 8 + 1 := by
        by_cases hsp : ((st.offset - 1) / 8 + 1) * 8 > st.offset
        · rw [if_pos hsp] at h
          rcases hw : readBits (src.drop off) st.offset
              (((st.offset - 1) / 8 + 1) * 8 - st.offset) with _ | w
          · simp [hw] at h
          · simp only [hw] at h
            have h2 := RunResult.ok.inj h
            simp only [Prod.mk.injEq] at h2
            exact h2.1.symm
        · rw [if_neg hsp] at h
          have h2 := RunResult.ok.inj h
          simp only [Prod.mk.injEq] at h2
          exact h2.1.symm
      have htoff : st.offset ≤ 8 * t ∧ 1 ≤ t := by
        constructor <;> omega
      have hm : t ≤ (src2.drop off).length := by
        rw [List.length_drop]
        omega
      have hagd : agreeOn (src.drop off) (src2.drop off) t := by
        intro j hj
        rw [getD_drop, getD_drop]
        exact hag (off + j) (List.mem_range.mpr (by omega)) (by omega)
      have hv42 : readBits (src2.drop off) 0 4 = some v :=
        readBits_agree hagd hm hv4 (by omega)
      have hLoop2 : loopGo (src2.drop off) (1 <<< (v + 5))
          (8 * (src2.drop off).length + 2)
          { offset := 4, R := 1 <<< (v + 5), state := 0, symbol := 0, acc := [],
            bb := [(4, v)] } = .ok st := by
        refine loopGo_agree hagd hm _ _ _ _ ?_ (by omega)
        refine loopGo_fuel (src.drop off) _ _ _ _ hLoop _ ?_
        have hl2 : t ≤ (src2.drop off).length := hm
        simp only
        omega
      simp only [hv42, hLoop2]
      by_cases hsp : ((st.offset - 1) / 8 + 1) * 8 > st.offset
      · rw [if_pos hsp] at h ⊢
        rcases hw : readBits (src.drop off) st.offset
            (((st.offset - 1) / 8 + 1) * 8 - st.offset) with _ | w
        · simp [hw] at h
        · simp only [hw] at h
          have hw2 := readBits_agree hagd hm hw (by omega)
          simp only [hw2]
          exact h
      · rw [if_neg hsp] at h ⊢
        exact h
    · exact RunResult.noConfusion h
    · exact RunResult.noConfusion h
    · exact RunResult.noConfusion h

/-- Witness for claim C7: replacing the three leading garbage bytes of
the test input and removing the three trailing ones leaves the
reconstruction at offset 3 unchanged. -/
theorem fse_reconstruct_window_agree_witness :
    reconstruct src4b 3 = RunResult.ok (4, bb4, tab4) :=
  fse_reconstruct_window_agree src4 src4b 3 4 bb4 tab4 (by decide) (by decide)
    (by decide)

/-- Counterexample to claim C3 as stated: the tag
ZstdBlockSequenceHeader is reachable during a decode (it is the declared
successor of the last declared row), yet no row of the tag table carries
it as its tag, so the transition table is not total on reachable tags. -/
theorem rom_tag_table_not_total_cex :
    Reaches ZstdTag.ZstdBlockSequenceHeader ∧
      (RomTagTableRow.rows.map RomTagTableRow.tag).count
        ZstdTag.ZstdBlockSequenceHeader = 0 := by
  constructor
  · exact Reaches.step
      ⟨.ZstdBlockLiteralsRawBytes, .ZstdBlockSequenceHeader, 1048575,
        false, false, true⟩ (by decide)
      (Reaches.step
        ⟨.ZstdBlockLiteralsHeader, .ZstdBlockLiteralsRawBytes, 5,
          false, false, true⟩ (by decide)
        (Reaches.step ⟨.BlockHeader, .ZstdBlockLiteralsHeader, 3,
            false, true, false⟩ (by decide)
          (Reaches.step ⟨.FrameContentSize, .BlockHeader, 8,
              false, true, false⟩ (by decide)
            (Reaches.step ⟨.FrameHeaderDescriptor, .FrameContentSize, 1,
                false, false, false⟩ (by decide)
              Reaches.startNext))))
  · decide

/-- Claim C3 (amended): every reachable tag appears as the tag of exactly
one row of the tag table, except the initial Null tag and the tag
ZstdBlockSequenceHeader, which are reachable but have no row. -/
theorem rom_tag_table_reachable_counts (tg : ZstdTag) (h : Reaches tg) :
    (RomTagTableRow.rows.map RomTagTableRow.tag).count tg
      = if tg = ZstdTag.Null ∨ tg = ZstdTag.ZstdBlockSequenceHeader
        then 0 else 1 := by
  induction h with
  | start => decide
  | startNext => decide
  | step r hr h ih =>
    have hd : ∀ r2 ∈ RomTagTableRow.rows,
        (RomTagTableRow.rows.map RomTagTableRow.tag).count r2.tag_next
          = if r2.tag_next = ZstdTag.Null ∨
              r2.tag_next = ZstdTag.ZstdBlockSequenceHeader
            then 0 else 1 := by decide
    exact hd r hr

/-- Witness for claim C3: the FrameContentSize tag is reachable and has
exactly one row. -/
theorem rom_tag_table_reachable_counts_witness :
    (RomTagTableRow.rows.map RomTagTableRow.tag).count ZstdTag.FrameContentSize
      = if ZstdTag.FrameContentSize = ZstdTag.Null ∨
          ZstdTag.FrameContentSize = ZstdTag.ZstdBlockSequenceHeader
        then 0 else 1 :=
  rom_tag_table_reachable_counts ZstdTag.FrameContentSize
    (Reaches.step ⟨.FrameHeaderDescriptor, .FrameContentSize, 1,
        false, false, false⟩ (by decide) Reaches.startNext)

/-- Claim C5: the predefined literal-length table maps every state 0 to
15 to (baseline equal to the state, 0 bits), state 20 to (24, 2) and
state 35 to (65536, 16); the predefined match-length table maps every
state 0 to 31 to (state plus 3, 0 bits), state 0 to (3, 0) and state 52
to (65539, 16). -/
theorem predefined_llt_mlt_values :
    ((List.range 16).all fun i =>
        mapLookup reconstruct_lltv.states_to_actions i == some (i, 0)) = true ∧
      mapLookup reconstruct_lltv.states_to_actions 20 = some (24, 2) ∧
      mapLookup reconstruct_lltv.states_to_actions 35 = some (65536, 16) ∧
      ((List.range 32).all fun i =>
        mapLookup reconstruct_mltv.states_to_actions i == some (i + 3, 0)) = true ∧
      mapLookup reconstruct_mltv.states_to_actions 0 = some (3, 0) ∧
      mapLookup reconstruct_mltv.states_to_actions 52 = some (65539, 16) := by
  decide

/-- Counterexample to claim C6 as stated: at n = 31 the entry of state 31
has baseline 18446744071562067968 = 2 ^ 64 - 2 ^ 31 (the u64
reinterpretation of the overflowed i32 shift of the unsuffixed literal
1), not 2 ^ 31. -/
theorem cmotv_state31_baseline_cex :
    (reconstruct_cmotv 31).isSome = true ∧
      ((reconstruct_cmotv 31).getD []).getD 31 (0, (0, 0)) ≠ (31, (2 ^ 31, 31)) ∧
      ((reconstruct_cmotv 31).getD []).getD 31 (0, (0, 0))
        = (31, (2 ^ 64 - 2 ^ 31, 31)) := by decide

/-- Claim C6 (amended): for every configured maximum offset code n at
most 30, reconstruct_cmotv succeeds and its entry for each state i at
most n is exactly (i, (2 ^ i, i)), in exact integer arithmetic; the
restriction to 30 is forced because the shifted literal is a 32-bit
signed integer in the source. -/
theorem cmotv_baselines_exact (n i : Nat) (hn : n ≤ 30) (hi : i ≤ n) :
    (reconstruct_cmotv n).isSome = true ∧
      ((reconstruct_cmotv n).getD []).getD i (0, (0, 0)) = (i, (2 ^ i, i)) := by
  have hgen : ∀ l : List Nat, (∀ x ∈ l, x < 31) →
      buildCmotv l = some (l.map (fun idx => (idx, (2 ^ idx, idx)))) := by
    intro l
    induction l with
    | nil => intro _; rfl
    | cons x xs ih =>
      intro hx
      have hx1 : x < 31 := hx x (List.mem_cons_self ..)
      simp only [buildCmotv, cmotvEntry, if_pos (show x < 32 by omega),
        if_neg (show ¬ x = 31 by omega),
        ih (fun y hy => hx y (List.mem_cons_of_mem _ hy)), List.map_cons]
  have hb : buildCmotv (List.range (n + 1))
      = some ((List.range (n + 1)).map (fun idx => (idx, (2 ^ idx, idx)))) :=
    hgen _ (fun x hx => by have := List.mem_range.mp hx; omega)
  unfold reconstruct_cmotv
  rw [hb]
  refine ⟨rfl, ?_⟩
  simp only [Option.getD_some]
  rw [List.getD_eq_getElem _ _ (by simp; omega), List.getElem_map,
    List.getElem_range]

/-- Witness for claim C6 at n = 2, i = 1. -/
theorem cmotv_baselines_exact_witness :
    (reconstruct_cmotv 2).isSome = true ∧
      ((reconstruct_cmotv 2).getD []).getD 1 (0, (0, 0)) = (1, (2 ^ 1, 1)) :=
  cmotv_baselines_exact 2 1 (by decide) (by decide)

/-- Claim C8: BlockType from u8 returns RawBlock for 0, RleBlock for 1,
ZstdCompressedBlock for 2 and Reserved for 3, and on the whole 2-bit
domain the unreachable defect branch is never taken, so the conversion
is total there. -/
theorem block_type_from_u8_total :
    BlockType.fromU8 0 = some BlockType.RawBlock ∧
      BlockType.fromU8 1 = some BlockType.RleBlock ∧
      BlockType.fromU8 2 = some BlockType.ZstdCompressedBlock ∧
      BlockType.fromU8 3 = some BlockType.Reserved ∧
      ((List.range 4).all fun s => (BlockType.fromU8 s).isSome) = true := by
  decide

theorem strictIncr_chain : ∀ l : List Nat, strictIncr l = true ↔ List.Chain' (· < ·) l
  | [] => by simp [strictIncr]
  | [a] => by simp [strictIncr]
  | a :: b :: rest => by
    have ih := strictIncr_chain (b :: rest)
    simp only [strictIncr, Bool.and_eq_true, decide_eq_true_eq, List.chain'_cons, ih]

/-- Claim C10: in the predefined literal-length and match-length tables
the state ids are exactly the consecutive integers 0 to 35, respectively
0 to 52, in increasing listed order, and the baselines are strictly
increasing across each entire table. -/
theorem fixed_tables_consecutive_increasing :
    reconstruct_lltv.states_to_actions.map Prod.fst = List.range 36 ∧
      reconstruct_mltv.states_to_actions.map Prod.fst = List.range 53 ∧
      List.Chain' (· < ·)
        (reconstruct_lltv.states_to_actions.map (fun p => p.2.1)) ∧
      List.Chain' (· < ·)
        (reconstruct_mltv.states_to_actions.map (fun p => p.2.1)) :=
  ⟨by decide, by decide, (strictIncr_chain _).mp (by decide),
    (strictIncr_chain _).mp (by decide)⟩

end ZkevmFse
